import Mathlib

/-!
Verification of the Recollect indexing/caching engine and search ranking
(`backend/search.py`, with the chunk extraction entry point of `backend/ocr.py`
and `backend/utils.py`).

Embedding conventions:
* Float values are modelled as exact rationals (`ℚ`); embedding vectors are
  `List ℚ`.  The one place float semantics genuinely diverge from exact
  arithmetic is division by a zero denominator in `compute_similarity`
  (`np.dot(e1,e2) / (norm(e1)*norm(e2))`), which in IEEE arithmetic produces a
  non-finite value (NaN, since the numerator is then also zero).  A similarity
  value is therefore `Option ℚ`, with `none` standing for NaN.
* `np.linalg.norm` is `sqrt (sum of squares)`; an exact square root is not
  rational, so the square-root function is an explicit parameter `sqrt` of the
  model.  Theorems assume only facts true of the real square root (such as
  `sqrt 0 = 0`); concrete evaluations instantiate it with `sqrtQ`, which is
  exact on the perfect squares used in those evaluations.
* External collaborators (the sentence-transformer encoders, the OCR/chunking
  pipeline of `ocr.py`, and the sub-image extractor of `image_utils.py`) are
  abstracted as a record of pure functions (`Providers`), as the spec treats
  them as pluggable capabilities.
* Python strings are modelled through their character lists, with helper
  functions mirroring the exact `str` operations used by the source.
-/

/-- Model of a Python file-path string split into segments; `joinPath`
recovers the `os.path.join` string. -/
abbrev FPath := List String

/-- An embedding vector (`np.ndarray` of floats), modelled as exact rationals. -/
abbrev Vec := List ℚ

/-- Errors the engine can raise: `NotImplementedError` from
`ocr.extract_chunks` (the spec's `UnsupportedFormat`), and `PermissionError`
from `os.listdir`. -/
inductive Err where
  | unsupportedFormat (path : String)
  | permission (p : FPath)
deriving DecidableEq

/-- Python `s.lower()` (per-character lowering, as used on ASCII paths). -/
def lowerStr (s : String) : String := String.mk (s.data.map Char.toLower)

/-- Python `s.split(".")` on the character list: splits at every dot, keeping
empty pieces, never returning an empty list. -/
def splitOnDot : List Char → List (List Char)
  | [] => [[]]
  | c :: cs =>
    if c = '.' then [] :: splitOnDot cs
    else
      match splitOnDot cs with
      | [] => [[c]]
      | h :: t => (c :: h) :: t

/-- Python `file.split(".")[-1].lower()`: the (lowercased) extension used for
the allow-list test in `search.py`. -/
def extOf (s : String) : String :=
  String.mk (((splitOnDot s.data).getLastD []).map Char.toLower)

/-- Python `"." in file`. -/
def containsDot (s : String) : Bool := s.data.contains '.'

/-- Python `file.startswith(".")`. -/
def startsWithDot (s : String) : Bool :=
  match s.data with
  | c :: _ => c = '.'
  | [] => false

/-- Python `s.endswith(suffix)`. -/
def strEndsWith (s suffix : String) : Bool := suffix.data.isSuffixOf s.data

/-- Model of `utils.is_image_path`: naive check based on the file extension. -/
def is_image_path (path : String) : Bool :=
  [".png", ".jpg", ".jpeg", ".bmp", ".tiff", ".gif"].any fun ext =>
    strEndsWith (lowerStr path) ext

/-- Model of `os.path.join` applied to the accumulated segments. -/
def joinPath : FPath → String
  | [] => ""
  | [s] => s
  | s :: rest => s ++ "/" ++ joinPath rest

/-- External capabilities of the engine (spec section 6): the two embedding
encoders (`text_model`, `image_model`, the latter applied to query strings),
the `.txt` chunking pipeline `ocr_to_chunks`, the OCR-then-chunk pipeline for
image files, and `extract_images_from_document` composed with the image
encoder. All are pure functions of their inputs, modelling a fixed
deterministic provider over a fixed filesystem snapshot. -/
structure Providers where
  encodeText : String → Vec
  encodeQueryImage : String → Vec
  txtChunks : String → List String
  imgChunks : String → List String
  imageEmbeds : String → List Vec

/-- Model of `search.Document`: a path and its two embedding collections. -/
structure Document where
  path : String
  text_embeddings : List Vec
  image_embeddings : List Vec
deriving DecidableEq

/-- Model of `ocr.extract_chunks`: `.txt` files are read and chunked, image
files are OCRed and chunked, anything else raises `NotImplementedError`
(the spec's `UnsupportedFormat`).  `content` is the text of the file at
`path` (the source reads it from disk). -/
def extract_chunks (P : Providers) (path content : String) : Except Err (List String) :=
  if strEndsWith path ".txt" then .ok (P.txtChunks content)
  else if is_image_path path then .ok (P.imgChunks path)
  else .error (.unsupportedFormat path)

/-- Model of `search.compute_document_embeddings`: one text embedding per
chunk; image embeddings only for image-type documents. -/
def compute_document_embeddings (P : Providers) (path content : String) :
    Except Err (List Vec × List Vec) := do
  let chunks ← extract_chunks P path content
  let text_embeddings := chunks.map P.encodeText
  let image_embeddings := if is_image_path path then P.imageEmbeds path else []
  .ok (text_embeddings, image_embeddings)

/-- Python truthiness of the optional `text_embeddings` argument: truthy
exactly when it is a non-empty list. -/
def truthyList : Option (List Vec) → Bool
  | some (_ :: _) => true
  | _ => false

/-- Model of `Document.__init__`.  The guard is exactly the source's
`if text_embeddings or image_embeddings is not None:` — note it parses as
`text_embeddings or (image_embeddings is not None)`.  When the guard holds the
supplied embeddings are used (`x or []` turns `None` and `[]` into `[]`);
otherwise a fresh embedding computation runs for `path`, which can raise. -/
def Document.init (P : Providers) (content path : String)
    (text_embeddings : Option (List Vec)) (image_embeddings : Option (List Vec)) :
    Except Err Document :=
  if truthyList text_embeddings || image_embeddings.isSome then
    .ok ⟨path, text_embeddings.getD [], image_embeddings.getD []⟩
  else
    (compute_document_embeddings P path content).map fun ti => ⟨path, ti.1, ti.2⟩

/-- Sum of squares of a vector; `np.linalg.norm v = sqrt (sumSq v)`. -/
def sumSq (v : Vec) : ℚ := (v.map fun x => x * x).sum

/-- Model of `np.dot` on equal-length float vectors. -/
def dotProd (v w : Vec) : ℚ := (List.zipWith (fun a b => a * b) v w).sum

/-- IEEE float division: a zero denominator yields a non-finite value
(modelled `none`); otherwise exact division. -/
def fdiv (num den : ℚ) : Option ℚ := if den = 0 then none else some (num / den)

/-- Model of `search.compute_similarity`:
`np.dot(e1, e2) / (np.linalg.norm(e1) * np.linalg.norm(e2))`.
`sqrt` is the square-root model (see the file header). -/
def compute_similarity (sqrt : ℚ → ℚ) (e1 e2 : Vec) : Option ℚ :=
  fdiv (dotProd e1 e2) (sqrt (sumSq e1) * sqrt (sumSq e2))

/-- Computable square-root model used for concrete evaluations: exact on
perfect squares (the only inputs concrete theorems evaluate it at), and
satisfying `sqrtQ 0 = 0` like the real square root. -/
def sqrtQ (q : ℚ) : ℚ := (Nat.sqrt q.num.toNat : ℚ) / (Nat.sqrt q.den : ℚ)

/-- IEEE `<` on float values: any comparison against NaN is false. -/
def ltF : Option ℚ → Option ℚ → Bool
  | some a, some b => decide (a < b)
  | _, _ => false

/-- Python `max` over a list of floats: keep the current value unless the
next item compares strictly greater (so NaN is sticky once it is the
accumulator, and ignored otherwise — faithful to CPython's order-dependent
behaviour).  `max` of an empty list raises in Python; the source guards
against that case, so the `[]` branch is unreachable. -/
def pyMax : List (Option ℚ) → Option ℚ
  | [] => none
  | x :: xs => xs.foldl (fun acc y => if ltF acc y then y else acc) x

/-- Similarity scores of one document against the query vectors: text
similarities, then image similarities scaled by `image_weight` (float
multiplication keeps NaN as NaN). -/
def docSims (sqrt : ℚ → ℚ) (qt qi : Vec) (image_weight : ℚ) (d : Document) :
    List (Option ℚ) :=
  d.text_embeddings.map (fun e => compute_similarity sqrt qt e) ++
    d.image_embeddings.map (fun e =>
      (compute_similarity sqrt qi e).map fun s => image_weight * s)

/-- The `similarities` list built by `search_documents`: for each document
with at least one embedding, the pair `(max similarity, original index)`. -/
def simList (sqrt : ℚ → ℚ) (qt qi : Vec) (image_weight : ℚ)
    (documents : List Document) : List (Option ℚ × ℕ) :=
  documents.enum.filterMap fun p =>
    if p.2.text_embeddings.isEmpty && p.2.image_embeddings.isEmpty then none
    else some (pyMax (docSims sqrt qt qi image_weight p.2), p.1)

/-- The comparison under which CPython's ascending stable sort arranges the
`(score, idx)` pairs when called with `key=lambda x: x[0]`: `a` may stay
before `b` iff `b.key < a.key` is false (IEEE semantics via `ltF`). -/
def simLe (a b : Option ℚ × ℕ) : Prop := ltF b.1 a.1 = false

instance : DecidableRel simLe := fun a b => by
  unfold simLe
  infer_instance

/-- Model of CPython `list.sort(key=lambda x: x[0], reverse=True)`:
CPython implements `reverse=True` by reversing the list, running its stable
ascending sort, and reversing again. -/
def pySortDesc (l : List (Option ℚ × ℕ)) : List (Option ℚ × ℕ) :=
  (List.insertionSort simLe l.reverse).reverse

/-- The default `Document` used only to give list indexing a total type; the
indices produced by `simList` are always in range. -/
def dfltDoc : Document := ⟨"", [], []⟩

/-- Model of `search.search_documents`: embed the query in both modalities,
score every document with at least one embedding by max-aggregation, sort the
`(score, index)` pairs descending (stable), and return the first `top_k`
documents. -/
def search_documents (sqrt : ℚ → ℚ) (P : Providers) (query : String)
    (documents : List Document) (top_k : ℕ) (image_weight : ℚ) : List Document :=
  let query_embedding := P.encodeText query
  let query_img_embedding := P.encodeQueryImage query
  let similarities := simList sqrt query_embedding query_img_embedding image_weight documents
  let sorted := pySortDesc similarities
  (sorted.take top_k).map fun s => documents.getD s.2 dfltDoc

/-- IEEE `>=` on float values: false whenever NaN is involved. -/
def geF : Option ℚ → Option ℚ → Bool
  | some a, some b => decide (b ≤ a)
  | _, _ => false

/-- The ordering invariant of the ascending stable sort on `(score, idx)`
pairs: later-listed pairs have larger keys, and equal keys appear with
strictly decreasing indices (the input of the ascending pass is the reversed
`similarities` list, whose indices decrease). -/
def stableSortedRel (a b : Option ℚ × ℕ) : Prop :=
  simLe a b ∧ (a.1 = b.1 → b.2 < a.2)

theorem simLe_iff {a b : Option ℚ × ℕ} {x y : ℚ} (ha : a.1 = some x) (hb : b.1 = some y) :
    simLe a b ↔ x ≤ y := by
  simp [simLe, ltF, ha, hb, decide_eq_false_iff_not, not_lt]

theorem orderedInsert_stable (x : Option ℚ × ℕ) (l : List (Option ℚ × ℕ))
    (hx : x.1.isSome) (hl : ∀ y ∈ l, y.1.isSome) (hidx : ∀ y ∈ l, y.2 < x.2)
    (hp : l.Pairwise stableSortedRel) :
    (List.orderedInsert simLe x l).Pairwise stableSortedRel := by
  induction l with
  | nil => simp [List.orderedInsert, List.pairwise_cons]
  | cons y ys ih =>
    obtain ⟨xv, hxv⟩ := Option.isSome_iff_exists.mp hx
    obtain ⟨yv, hyv⟩ := Option.isSome_iff_exists.mp (hl y (List.mem_cons_self y ys))
    rw [List.orderedInsert]
    by_cases h : simLe x y
    · rw [if_pos h]
      refine List.pairwise_cons.mpr ⟨?_, hp⟩
      intro z hz
      rcases List.mem_cons.mp hz with rfl | hz
      · exact ⟨h, fun _ => hidx z (List.mem_cons_self z ys)⟩
      · obtain ⟨zv, hzv⟩ := Option.isSome_iff_exists.mp (hl z (List.mem_cons_of_mem y hz))
        have hyz : simLe y z := (List.rel_of_pairwise_cons hp hz).1
        refine ⟨(simLe_iff hxv hzv).mpr ?_, fun _ => hidx z (List.mem_cons_of_mem y hz)⟩
        exact le_trans ((simLe_iff hxv hyv).mp h) ((simLe_iff hyv hzv).mp hyz)
    · rw [if_neg h]
      have hyx : yv < xv := by
        have := (simLe_iff hxv hyv).not.mp h
        exact lt_of_not_le this
      refine List.pairwise_cons.mpr ⟨?_, ?_⟩
      · intro z hz
        rcases (List.mem_orderedInsert simLe).mp hz with rfl | hz
        · refine ⟨(simLe_iff hyv hxv).mpr (le_of_lt hyx), fun heq => ?_⟩
          rw [hyv, hxv] at heq
          exact absurd (Option.some_injective ℚ heq) (ne_of_lt hyx)
        · exact List.rel_of_pairwise_cons hp hz
      · exact ih (fun z hz => hl z (List.mem_cons_of_mem y hz))
          (fun z hz => hidx z (List.mem_cons_of_mem y hz)) (List.pairwise_cons.mp hp).2

theorem insertionSort_stable (l : List (Option ℚ × ℕ))
    (hl : ∀ y ∈ l, y.1.isSome) (hp : l.Pairwise (fun a b => b.2 < a.2)) :
    (List.insertionSort simLe l).Pairwise stableSortedRel := by
  induction l with
  | nil => simp [List.insertionSort]
  | cons x t ih =>
    rw [List.insertionSort]
    refine orderedInsert_stable x _ (hl x (List.mem_cons_self x t)) ?_ ?_ ?_
    · intro y hy
      exact hl y (List.mem_cons_of_mem x ((List.mem_insertionSort simLe).mp hy))
    · intro y hy
      exact (List.pairwise_cons.mp hp).1 y ((List.mem_insertionSort simLe).mp hy)
    · exact ih (fun y hy => hl y (List.mem_cons_of_mem x hy)) (List.pairwise_cons.mp hp).2

theorem mem_enumFrom_le {α : Type} : ∀ (n : ℕ) (l : List α) (z : ℕ × α),
    z ∈ List.enumFrom n l → n ≤ z.1 := by
  intro n l
  induction l generalizing n with
  | nil => simp
  | cons x t ih =>
    intro z hz
    rw [List.enumFrom] at hz
    rcases List.mem_cons.mp hz with rfl | hz
    · exact le_refl n
    · exact le_trans (Nat.le_succ n) (ih (n + 1) z hz)

theorem enumFrom_fst_pairwise {α : Type} : ∀ (n : ℕ) (l : List α),
    (List.enumFrom n l).Pairwise (fun a b => a.1 < b.1) := by
  intro n l
  induction l generalizing n with
  | nil => simp
  | cons x t ih =>
    rw [List.enumFrom]
    refine List.pairwise_cons.mpr ⟨?_, ih (n + 1)⟩
    intro z hz
    have := mem_enumFrom_le (n + 1) t z hz
    omega

theorem simList_idx_pairwise (sqrt : ℚ → ℚ) (qt qi : Vec) (w : ℚ) (docs : List Document) :
    (simList sqrt qt qi w docs).Pairwise (fun a b => a.2 < b.2) := by
  unfold simList
  rw [List.pairwise_filterMap]
  refine (enumFrom_fst_pairwise 0 docs).imp ?_
  intro a b hab x hx y hy
  have hx2 : x.2 = a.1 := by
    by_cases h : a.2.text_embeddings.isEmpty && a.2.image_embeddings.isEmpty
    · simp [h] at hx
    · simp [h] at hx
      simp [← hx]
  have hy2 : y.2 = b.1 := by
    by_cases h : b.2.text_embeddings.isEmpty && b.2.image_embeddings.isEmpty
    · simp [h] at hy
    · simp [h] at hy
      simp [← hy]
  rw [hx2, hy2]
  exact hab

/-- A concrete deterministic provider used by closed evaluations: constant
one-dimensional query embeddings, one chunk per text file, no sub-images. -/
def Pid : Providers :=
  ⟨fun _ => [1], fun _ => [1], fun s => [s], fun _ => [], fun _ => []⟩

/-- Claim C2 (counterexample): the claim says similarity against an all-zero
vector is `0` and that a zero-embedding document ranks strictly below any
document with positive similarity.  In the code the denominator
`norm(e1)*norm(e2)` is `0`, so the division yields NaN (`none`), not `0`; and
in the two-document search below the NaN-scored document `"zero"` is returned
FIRST, above the document with similarity `1` (CPython's reversed stable sort
leaves the NaN pair in front, and the model agrees with CPython on this
two-element list). -/
theorem C2_counterexample :
    compute_similarity sqrtQ [(1 : ℚ)] [0] = none ∧
      search_documents sqrtQ Pid "q" [⟨"zero", [[0]], []⟩, ⟨"pos", [[1]], []⟩] 5 (3 / 2) =
        [⟨"zero", [[0]], []⟩, ⟨"pos", [[1]], []⟩] := by
  constructor
  · norm_num [compute_similarity, fdiv, sumSq, dotProd, sqrtQ]
  · norm_num [search_documents, simList, docSims, pyMax, compute_similarity, fdiv, sumSq,
      dotProd, sqrtQ, pySortDesc, List.insertionSort, List.orderedInsert, simLe, ltF,
      List.enum, List.enumFrom, Pid]

/-- Claim C2 (amended): for every pair of embedding vectors where at least one
is all-zero, `compute_similarity` divides by a zero denominator and the result
is the non-finite float NaN (modelled `none`) — not `0`; consequently a
document holding only zero embeddings gets a NaN score, which is not ranked
below positive-similarity documents (see the counterexample).  The only fact
assumed about the square-root model is `sqrt 0 = 0`. -/
theorem C2_amended_zero_vector_nan (sqrt : ℚ → ℚ) (h0 : sqrt 0 = 0) (e1 e2 : Vec)
    (h : (∀ x ∈ e1, x = 0) ∨ (∀ x ∈ e2, x = 0)) :
    compute_similarity sqrt e1 e2 = none := by
  have hz : ∀ v : Vec, (∀ x ∈ v, x = 0) → sumSq v = 0 := by
    intro v hv
    refine List.sum_eq_zero ?_
    intro y hy
    obtain ⟨x, hx, rfl⟩ := List.mem_map.mp hy
    rw [hv x hx, mul_zero]
  unfold compute_similarity fdiv
  rcases h with h | h
  · rw [hz e1 h, h0, zero_mul]
    simp
  · rw [hz e2 h, h0, mul_zero]
    simp

/-- Witness for C2 (amended): concrete instantiation with `sqrtQ`, a zero
vector on the left and a nonzero vector on the right. -/
theorem C2_witness :
    (sqrtQ 0 = 0 ∧ (∀ x ∈ ([0] : Vec), x = 0)) ∧
      compute_similarity sqrtQ [0] [5] = none :=
  ⟨⟨by norm_num [sqrtQ], by norm_num⟩,
    C2_amended_zero_vector_nan sqrtQ (by norm_num [sqrtQ]) [0] [5] (Or.inl (by norm_num))⟩

/-- Claim C5 (counterexample): the claim asserts the result is ordered by
score descending for EVERY query and document list.  With a zero text
embedding the score is NaN; on this two-document input the sorted pair list
puts the NaN entry first, so the first returned document's score is not `≥`
the second's (IEEE `>=` against NaN is false). -/
theorem C5_counterexample :
    pySortDesc (simList sqrtQ (Pid.encodeText "q") (Pid.encodeQueryImage "q") (3 / 2)
        [⟨"nanDoc", [[0]], []⟩, ⟨"one", [[1]], []⟩]) =
      [(none, 0), (some 1, 1)] ∧
      geF none (some 1) = false ∧
      search_documents sqrtQ Pid "q" [⟨"nanDoc", [[0]], []⟩, ⟨"one", [[1]], []⟩] 5 (3 / 2) =
        [⟨"nanDoc", [[0]], []⟩, ⟨"one", [[1]], []⟩] := by
  refine ⟨?_, rfl, ?_⟩
  · norm_num [simList, docSims, pyMax, compute_similarity, fdiv, sumSq,
      dotProd, sqrtQ, pySortDesc, List.insertionSort, List.orderedInsert, simLe, ltF,
      List.enum, List.enumFrom, Pid]
  · norm_num [search_documents, simList, docSims, pyMax, compute_similarity, fdiv, sumSq,
      dotProd, sqrtQ, pySortDesc, List.insertionSort, List.orderedInsert, simLe, ltF,
      List.enum, List.enumFrom, Pid]

/-- Claim C5 (amended): provided every computed document score is a defined
(non-NaN) float — in particular no zero-norm embedding is involved — the
sorted pair list is ordered by score descending with ties broken by original
input index, and `search_documents` returns exactly the documents of the
first `top_k` sorted pairs. -/
theorem C5_search_documents_ranking (sqrt : ℚ → ℚ) (P : Providers) (query : String)
    (documents : List Document) (top_k : ℕ) (image_weight : ℚ)
    (hdef : ∀ s ∈ simList sqrt (P.encodeText query) (P.encodeQueryImage query)
      image_weight documents, s.1.isSome) :
    (pySortDesc (simList sqrt (P.encodeText query) (P.encodeQueryImage query)
          image_weight documents)).Pairwise
        (fun a b => geF a.1 b.1 = true ∧ (a.1 = b.1 → a.2 < b.2)) ∧
      search_documents sqrt P query documents top_k image_weight =
        ((pySortDesc (simList sqrt (P.encodeText query) (P.encodeQueryImage query)
            image_weight documents)).take top_k).map
          (fun s => documents.getD s.2 dfltDoc) := by
  refine ⟨?_, rfl⟩
  have hidx := simList_idx_pairwise sqrt (P.encodeText query) (P.encodeQueryImage query)
    image_weight documents
  have h1 : (simList sqrt (P.encodeText query) (P.encodeQueryImage query)
      image_weight documents).reverse.Pairwise (fun a b => b.2 < a.2) :=
    List.pairwise_reverse.mpr hidx
  have h2 : ∀ y ∈ (simList sqrt (P.encodeText query) (P.encodeQueryImage query)
      image_weight documents).reverse, y.1.isSome :=
    fun y hy => hdef y (List.mem_reverse.mp hy)
  have h3 := insertionSort_stable _ h2 h1
  have h4 : (pySortDesc (simList sqrt (P.encodeText query) (P.encodeQueryImage query)
      image_weight documents)).Pairwise (fun a b => stableSortedRel b a) :=
    List.pairwise_reverse.mpr h3
  refine h4.imp_of_mem ?_
  intro a b ha hb hr
  have hmem : ∀ c, c ∈ pySortDesc (simList sqrt (P.encodeText query)
      (P.encodeQueryImage query) image_weight documents) → c.1.isSome := by
    intro c hc
    unfold pySortDesc at hc
    have := (List.mem_insertionSort simLe).mp (List.mem_reverse.mp hc)
    exact hdef c (List.mem_reverse.mp this)
  obtain ⟨av, hav⟩ := Option.isSome_iff_exists.mp (hmem a ha)
  obtain ⟨bv, hbv⟩ := Option.isSome_iff_exists.mp (hmem b hb)
  constructor
  · have : bv ≤ av := (simLe_iff hbv hav).mp hr.1
    rw [hav, hbv]
    simpa [geF] using this
  · intro heq
    exact hr.2 heq.symm

/-- Witness for C5 (amended): three one-hot-scored documents, including a
score tie between the first two, searched with `top_k = 2`. -/
theorem C5_witness :
    (∀ s ∈ simList sqrtQ (Pid.encodeText "q") (Pid.encodeQueryImage "q") (3 / 2)
        [⟨"a", [[1]], []⟩, ⟨"b", [[1]], []⟩, ⟨"c", [[-1]], []⟩], s.1.isSome) ∧
      ((pySortDesc (simList sqrtQ (Pid.encodeText "q") (Pid.encodeQueryImage "q")
            (3 / 2) [⟨"a", [[1]], []⟩, ⟨"b", [[1]], []⟩, ⟨"c", [[-1]], []⟩])).Pairwise
          (fun a b => geF a.1 b.1 = true ∧ (a.1 = b.1 → a.2 < b.2)) ∧
        search_documents sqrtQ Pid "q"
            [⟨"a", [[1]], []⟩, ⟨"b", [[1]], []⟩, ⟨"c", [[-1]], []⟩] 2 (3 / 2) =
          ((pySortDesc (simList sqrtQ (Pid.encodeText "q") (Pid.encodeQueryImage "q")
              (3 / 2) [⟨"a", [[1]], []⟩, ⟨"b", [[1]], []⟩, ⟨"c", [[-1]], []⟩])).take 2).map
            (fun s => [⟨"a", [[1]], []⟩, ⟨"b", [[1]], []⟩,
              ⟨"c", [[-1]], []⟩].getD s.2 dfltDoc)) :=
  ⟨by
      norm_num [simList, docSims, pyMax, compute_similarity, fdiv, sumSq,
        dotProd, sqrtQ, ltF, List.enum, List.enumFrom, Pid]
      rintro a b (⟨rfl, h⟩ | ⟨rfl, h⟩ | ⟨rfl, h⟩) <;> rfl,
    C5_search_documents_ranking sqrtQ Pid "q"
      [⟨"a", [[1]], []⟩, ⟨"b", [[1]], []⟩, ⟨"c", [[-1]], []⟩] 2 (3 / 2)
      (by
        norm_num [simList, docSims, pyMax, compute_similarity, fdiv, sumSq,
          dotProd, sqrtQ, ltF, List.enum, List.enumFrom, Pid]
        rintro a b (⟨rfl, h⟩ | ⟨rfl, h⟩ | ⟨rfl, h⟩) <;> rfl)⟩

/-- Claim C7 (counterexample): the claim says searching with an empty query
string returns an empty ranked list.  The code embeds `""` like any other
string and ranks normally: over one document with an embedding the result is
that document, not `[]`. -/
theorem C7_counterexample :
    search_documents sqrtQ Pid "" [⟨"doc", [[1]], []⟩] 5 (3 / 2) =
      [⟨"doc", [[1]], []⟩] := by
  norm_num [search_documents, simList, docSims, pyMax, compute_similarity, fdiv, sumSq,
    dotProd, sqrtQ, pySortDesc, List.insertionSort, List.orderedInsert, simLe, ltF,
    List.enum, List.enumFrom, Pid]

/-- Claim C7 (amended): `search_documents` is total and an empty document
list yields an empty ranked list for every query; but an empty query string
is embedded like any other string and can return documents (see the
counterexample). -/
theorem C7_amended_empty_documents (sqrt : ℚ → ℚ) (P : Providers) (query : String)
    (top_k : ℕ) (w : ℚ) : search_documents sqrt P query [] top_k w = [] := by
  norm_num [search_documents, simList, pySortDesc, List.insertionSort,
    List.enum, List.enumFrom]

/-- Claim C10: `Document(path, text_embeddings=[], image_embeddings=None)`
does not produce an empty loaded document: the guard
`text_embeddings or image_embeddings is not None` is false for `([], None)`,
so a fresh embedding computation runs for `path`; the supplied embeddings are
used exactly when `text_embeddings` is non-empty or `image_embeddings` is not
`None`. -/
theorem C10_document_init_guard (P : Providers) (content path : String) :
    Document.init P content path (some []) none =
        ((compute_document_embeddings P path content).map fun ti => ⟨path, ti.1, ti.2⟩) ∧
      ∀ t i, (truthyList t || Option.isSome i) = true →
        Document.init P content path t i = .ok ⟨path, t.getD [], i.getD []⟩ := by
  constructor
  · rfl
  · intro t i h
    simp [Document.init, h]

/-- Witness for C10: the guard hypothesis discharged at `(None, [[1]])`,
plus the computed branch at `([], None)`. -/
theorem C10_witness :
    (truthyList none || Option.isSome (some ([[1]] : List Vec))) = true ∧
      Document.init Pid "c" "p" none (some [[1]]) = .ok ⟨"p", [], [[1]]⟩ ∧
      Document.init Pid "c" "p" (some []) none =
        ((compute_document_embeddings Pid "p" "c").map fun ti => ⟨"p", ti.1, ti.2⟩) :=
  ⟨rfl, (C10_document_init_guard Pid "c" "p").2 none (some [[1]]) rfl,
    (C10_document_init_guard Pid "c" "p").1⟩

/-- Bundle keys: models the npz filenames written by `_save_index_to_cache` —
`(i, true)` stands for `"doc_<i>_tembeddings.npz"` and `(i, false)` for
`"doc_<i>_iembeddings.npz"`. -/
abbrev BKey := Nat × Bool

/-- One document record of a cache manifest (`index.json`): the document path
and the bundle-file names of its two modalities (`null` when absent). -/
structure ManEntry where
  path : String
  text_embeddings_file : Option BKey
  image_embeddings_file : Option BKey
deriving DecidableEq

/-- A cache manifest (`index.json`): document records plus child cache
directory references. -/
structure Manifest where
  documents : List ManEntry
  children : List FPath
deriving DecidableEq

/-- A `.recollect` cache directory: the manifest (`none` models a missing or
corrupt `index.json`, whose `json.load` raises) and the npz bundle files. -/
structure RecollectDir where
  manifest : Option Manifest
  bundles : List (BKey × List Vec)
deriving DecidableEq

/-- The cache store: which directories own a `.recollect` cache, keyed by the
owning directory's path.  Kept separate from the (immutable) file tree, since
the build only ever creates or overwrites whole cache directories. -/
abbrev CacheMap := List (FPath × RecollectDir)

/-- Look up the `.recollect` cache of directory `p` (`os.path.exists` +
reading it). -/
def lookupC (σ : CacheMap) (p : FPath) : Option RecollectDir :=
  match σ with
  | [] => none
  | (q, rd) :: rest => if q = p then some rd else lookupC rest p

/-- Create or overwrite the `.recollect` cache of directory `p`
(`os.makedirs(exist_ok=True)` followed by writing the bundle files and
`index.json`; bundle files a previous cache left behind are unreferenced by
the new manifest and thus invisible to `_load_cached_index`). -/
def insertC (p : FPath) (rd : RecollectDir) (σ : CacheMap) : CacheMap := (p, rd) :: σ

/-- Read one npz bundle file by name (`np.load`); `none` models the missing
file, which raises. -/
def lookupB (bs : List (BKey × List Vec)) (k : BKey) : Option (List Vec) :=
  match bs with
  | [] => none
  | (k2, v) :: rest => if k2 = k then some v else lookupB rest k

/-- A filesystem snapshot: a file with its text content, or a directory with
its entries in `os.listdir` order.  `readable = false` makes `os.listdir`
raise `PermissionError`.  `.recollect` cache directories live in the separate
`CacheMap`, not among the entries. -/
inductive FSTree where
  | file (content : String)
  | dir (readable : Bool) (entries : List (String × FSTree))

/-- Python `os.path.isdir`. -/
def FSTree.isDir : FSTree → Bool
  | .dir _ _ => true
  | .file _ => false

/-- Content of a file node (only applied to files). -/
def contentOf : FSTree → String
  | .file c => c
  | .dir _ _ => ""

/-- The per-document loop body of `_save_index_to_cache`, from running index
`i`: manifest records plus the bundle files of every non-empty modality. -/
def saveEntries : Nat → List Document → List ManEntry × List (BKey × List Vec)
  | _, [] => ([], [])
  | i, d :: ds =>
    let rest := saveEntries (i + 1) ds
    let te : Option BKey := if 0 < d.text_embeddings.length then some (i, true) else none
    let ie : Option BKey := if 0 < d.image_embeddings.length then some (i, false) else none
    let b1 := if 0 < d.text_embeddings.length then [((i, true), d.text_embeddings)] else []
    let b2 := if 0 < d.image_embeddings.length then [((i, false), d.image_embeddings)] else []
    (⟨d.path, te, ie⟩ :: rest.1, b1 ++ b2 ++ rest.2)

/-- Model of `search._save_index_to_cache` (the source name carries a leading
underscore): write the bundles and the manifest into `p`'s cache directory
and return the cache path. -/
def save_index_to_cache (p : FPath) (documents : List Document)
    (child_cache_paths : List FPath) (σ : CacheMap) : FPath × CacheMap :=
  let se := saveEntries 0 documents
  (p, insertC p ⟨some ⟨se.1, child_cache_paths⟩, se.2⟩ σ)

/-- Load one manifest record back into a `Document`: read each referenced
bundle (a missing bundle raises, making the whole level fail), then call the
`Document` constructor with the loaded lists. -/
def loadDocEntry (P : Providers) (bundles : List (BKey × List Vec)) (e : ManEntry) :
    Option Document := do
  let t ← match e.text_embeddings_file with
    | none => some []
    | some k => lookupB bundles k
  let i ← match e.image_embeddings_file with
    | none => some []
    | some k => lookupB bundles k
  match Document.init P "" e.path (some t) (some i) with
  | .ok d => some d
  | .error _ => none

/-- Load every manifest record; `none` models any raised exception in the
loading loop. -/
def loadDocsList (P : Providers) (bundles : List (BKey × List Vec)) :
    List ManEntry → Option (List Document)
  | [] => some []
  | e :: es => do
    let d ← loadDocEntry P bundles e
    let ds ← loadDocsList P bundles es
    some (d :: ds)

/-- Model of `search._load_cached_index`: read the manifest, recursively load
the children first, then this level's documents.  Any failure at this level
(missing cache directory, corrupt `index.json`, missing bundle — and, at
`fuel = 0`, Python's `RecursionError`) is caught by the `try` and yields `[]`
for this level only; a failing child simply contributes `[]` of its own. -/
def load_cached_index (P : Providers) : Nat → CacheMap → FPath → List Document
  | 0, _, _ => []
  | fuel + 1, σ, p =>
    match lookupC σ p with
    | none => []
    | some rd =>
      match rd.manifest with
      | none => []
      | some man =>
        let childDocs := (man.children.map fun c => load_cached_index P fuel σ c).flatten
        match loadDocsList P rd.bundles man.documents with
        | none => []
        | some ds => childDocs ++ ds

/-- The file loop of `_create_index_recursive` (lines 198–200): index every
direct file whose name has a dot, is not hidden, and whose extension is in
the allow-list.  `Document.init` with two `None`s computes embeddings and can
raise `UnsupportedFormat`, which propagates. -/
def mkFileDocs (P : Providers) (types : List String) (p : FPath) :
    List (String × FSTree) → Except Err (List Document)
  | [] => .ok []
  | (name, t) :: rest =>
    if containsDot name && !startsWithDot name && types.contains (extOf name) then do
      let d ← Document.init P (contentOf t) (joinPath (p ++ [name])) none none
      let ds ← mkFileDocs P types p rest
      .ok (d :: ds)
    else mkFileDocs P types p rest

mutual

/-- Model of `search._create_index_recursive`: returns
`((cached, uncached, children_cache_paths), updated cache store)` or the
first uncaught exception.  `os.listdir` failing with `PermissionError` is
caught and yields three empty lists.  When `use_cache` holds and this
directory owns a cache, the whole subtree resolves from that cache.
Otherwise recurse into non-hidden subdirectories, index the direct files,
and materialize a subcache when the uncached count exceeds the threshold
(note the source saves subcaches regardless of `use_cache`). -/
def create_index_recursive (P : Providers) (types : List String) (uc : Bool)
    (thr : Option Nat) (fuel : Nat) (p : FPath) :
    FSTree → CacheMap →
      Except Err ((List Document × List Document × List FPath) × CacheMap)
  | .file _, σ => .ok (([], [], []), σ)
  | .dir readable entries, σ =>
    if readable = false then .ok (([], [], []), σ)
    else if uc && (lookupC σ p).isSome then
      .ok ((load_cached_index P fuel σ p, [], [p]), σ)
    else do
      let r1 ← create_children P types uc thr fuel p entries σ
      let fdocs ← mkFileDocs P types p (entries.filter fun e => !e.2.isDir)
      let cached := r1.1.1
      let uncached := r1.1.2.1 ++ fdocs
      let children := r1.1.2.2
      match thr with
      | some n =>
        if n < uncached.length then
          let sc := save_index_to_cache p uncached children r1.2
          .ok ((cached ++ uncached, [], [sc.1]), sc.2)
        else .ok ((cached, uncached, children), r1.2)
      | none => .ok ((cached, uncached, children), r1.2)
termination_by t σ => sizeOf t

/-- The subdirectory loop of `_create_index_recursive`: file entries are
skipped here (the source partitions `entries` into files and subdirs first;
skipping inline preserves the order), hidden subdirectories are skipped, and
the three result lists of each subtree are accumulated in listdir order,
threading the cache store. -/
def create_children (P : Providers) (types : List String) (uc : Bool)
    (thr : Option Nat) (fuel : Nat) (p : FPath) :
    List (String × FSTree) → CacheMap →
      Except Err ((List Document × List Document × List FPath) × CacheMap)
  | [], σ => .ok (([], [], []), σ)
  | (name, t) :: rest, σ =>
    if t.isDir = false then create_children P types uc thr fuel p rest σ
    else if startsWithDot name then create_children P types uc thr fuel p rest σ
    else do
      let r1 ← create_index_recursive P types uc thr fuel (p ++ [name]) t σ
      let r2 ← create_children P types uc thr fuel p rest r1.2
      .ok ((r1.1.1 ++ r2.1.1, r1.1.2.1 ++ r2.1.2.1, r1.1.2.2 ++ r2.1.2.2), r2.2)
termination_by es σ => sizeOf es

end


/-- Model of `search.get_index`: consult the root cache when `use_cache` and
it exists, returning its documents only when non-empty; otherwise rebuild
recursively, and — when `use_cache` and some uncached documents remain —
write the final root manifest covering them. -/
def get_index (P : Providers) (fuel : Nat) (types : List String) (uc : Bool)
    (thr : Option Nat) (p : FPath) (t : FSTree) (σ : CacheMap) :
    Except Err (List Document × CacheMap) :=
  let tryCache := if uc && (lookupC σ p).isSome then load_cached_index P fuel σ p else []
  if 0 < tryCache.length then .ok (tryCache, σ)
  else do
    let r ← create_index_recursive P types uc thr fuel p t σ
    if uc && 0 < r.1.2.1.length then
      let sc := save_index_to_cache p r.1.2.1 r.1.2.2 r.2
      .ok (r.1.1 ++ r.1.2.1, sc.2)
    else .ok (r.1.1 ++ r.1.2.1, r.2)

/-- The default allow-list of `get_index`. -/
def defaultAllowTypes : List String := ["pdf", "png", "jpg", "txt"]

mutual

/-- Model of `search.extract_file_paths`: depth-first enumeration of files
matching the allow-list.  `os.listdir` on an unreadable directory raises
`PermissionError`, which this function does NOT catch.  (It is only ever
called on directories; the `file` case is unreachable.  The source also
skips an entry named `.recollect`; caches are modelled outside the entry
list, so no such entry occurs.) -/
def extract_file_paths (types : List String) : FPath → FSTree → Except Err (List String)
  | _, .file _ => .ok []
  | p, .dir readable entries =>
    if readable = false then .error (.permission p)
    else extract_paths_list types p entries
termination_by p t => sizeOf t

/-- The entry loop of `extract_file_paths`: matching files contribute their
joined path; directories (hidden ones included — this walker does not skip
them) are recursed into in place. -/
def extract_paths_list (types : List String) (p : FPath) :
    List (String × FSTree) → Except Err (List String)
  | [] => .ok []
  | (name, t) :: rest =>
    if containsDot name && types.contains (extOf name) && !t.isDir then do
      let ds ← extract_paths_list types p rest
      .ok (joinPath (p ++ [name]) :: ds)
    else if t.isDir then do
      let sub ← extract_file_paths types (p ++ [name]) t
      let ds ← extract_paths_list types p rest
      .ok (sub ++ ds)
    else extract_paths_list types p rest
termination_by es => sizeOf es

end

deriving instance DecidableEq for Except

theorem lookupB_append (xs ys : List (BKey × List Vec)) (k : BKey) :
    lookupB (xs ++ ys) k =
      match lookupB xs k with
      | some v => some v
      | none => lookupB ys k := by
  induction xs with
  | nil => simp [lookupB]
  | cons h t ih =>
    obtain ⟨k2, v⟩ := h
    by_cases hk : k2 = k
    · simp [lookupB, hk]
    · simp [lookupB, hk, ih]

theorem loadDocsList_saveEntries (P : Providers) : ∀ (docs : List Document) (i : Nat)
    (B : List (BKey × List Vec)),
    (∀ k : BKey, i ≤ k.1 → lookupB B k = lookupB (saveEntries i docs).2 k) →
    loadDocsList P B (saveEntries i docs).1 = some docs := by
  intro docs
  induction docs with
  | nil =>
    intro i B _
    simp [saveEntries, loadDocsList]
  | cons d ds ih =>
    intro i B hB
    obtain ⟨dp, dt, di⟩ := d
    have hsplit : saveEntries i (⟨dp, dt, di⟩ :: ds) =
        (⟨dp, (if 0 < dt.length then some ((i, true) : BKey) else none),
            (if 0 < di.length then some ((i, false) : BKey) else none)⟩ ::
          (saveEntries (i + 1) ds).1,
        (if 0 < dt.length then [(((i, true) : BKey), dt)] else [])
          ++ ((if 0 < di.length then [(((i, false) : BKey), di)] else [])
            ++ (saveEntries (i + 1) ds).2)) := by
      simp [saveEntries]
    have htail : ∀ k : BKey, i + 1 ≤ k.1 →
        lookupB B k = lookupB (saveEntries (i + 1) ds).2 k := by
      intro k hk
      rw [hB k (le_trans (Nat.le_succ i) hk), hsplit, lookupB_append, lookupB_append]
      have hne : i ≠ k.1 := by omega
      have hkt : ((i, true) : BKey) ≠ k := fun h => hne (congrArg Prod.fst h)
      have hki : ((i, false) : BKey) ≠ k := fun h => hne (congrArg Prod.fst h)
      by_cases ht : 0 < dt.length <;> by_cases hi : 0 < di.length <;>
        simp [ht, hi, lookupB, hkt, hki]
    have hTl : 0 < dt.length → lookupB B ((i, true) : BKey) = some dt := by
      intro ht
      rw [hB (i, true) (le_refl i), hsplit, lookupB_append]
      simp [ht, lookupB]
    have hIl : 0 < di.length → lookupB B ((i, false) : BKey) = some di := by
      intro hi
      rw [hB (i, false) (le_refl i), hsplit, lookupB_append, lookupB_append]
      by_cases ht : 0 < dt.length <;> simp [ht, hi, lookupB]
    rw [hsplit]
    have hrec := ih (i + 1) B htail
    by_cases ht : 0 < dt.length <;> by_cases hi : 0 < di.length
    · simp [loadDocsList, loadDocEntry, ht, hi, hTl ht, hIl hi, Document.init,
        truthyList, hrec]
    · have hdi : di = [] := by
        cases di with
        | nil => rfl
        | cons a l => simp at hi
      simp [loadDocsList, loadDocEntry, ht, hi, hTl ht, hdi, Document.init,
        truthyList, hrec]
    · have hdt : dt = [] := by
        cases dt with
        | nil => rfl
        | cons a l => simp at ht
      simp [loadDocsList, loadDocEntry, ht, hi, hIl hi, hdt, Document.init,
        truthyList, hrec]
    · have hdt : dt = [] := by
        cases dt with
        | nil => rfl
        | cons a l => simp at ht
      have hdi : di = [] := by
        cases di with
        | nil => rfl
        | cons a l => simp at hi
      simp [loadDocsList, loadDocEntry, ht, hi, hdt, hdi, Document.init,
        truthyList, hrec]

/-- Claim C4: round-trip — loading the cache written by
`save(dir, docs, refs)` yields exactly the documents the child references
resolve to followed by `docs` themselves, with path and both embedding
sequences preserved element-wise (`Document` equality is componentwise). -/
theorem C4_cache_roundtrip (P : Providers) (p : FPath) (docs : List Document)
    (refs : List FPath) (σ : CacheMap) (fuel : Nat) :
    load_cached_index P (fuel + 1) (save_index_to_cache p docs refs σ).2 p =
      (refs.map fun r =>
        load_cached_index P fuel (save_index_to_cache p docs refs σ).2 r).flatten ++ docs := by
  conv_lhs => rw [load_cached_index]
  have h1 : lookupC (save_index_to_cache p docs refs σ).2 p =
      some ⟨some ⟨(saveEntries 0 docs).1, refs⟩, (saveEntries 0 docs).2⟩ := by
    simp [save_index_to_cache, insertC, lookupC]
  rw [h1]
  simp only []
  rw [loadDocsList_saveEntries P docs 0 (saveEntries 0 docs).2 (fun _ _ => rfl)]

/-- Claim C1 (counterexample): the claim says a file whose chunk extraction
fails with `UnsupportedFormat` is merely excluded while the build continues.
But `_create_index_recursive` wraps no handler around `Document(...)`: with
the DEFAULT allow-list (which admits `pdf` although `extract_chunks` supports
only `.txt` and images), a single `a.pdf` makes the whole `get_index` call
raise — the remaining `b.txt` is not returned. -/
theorem C1_counterexample :
    get_index Pid 1 defaultAllowTypes true (some 50) []
        (.dir true [("a.pdf", .file "x"), ("b.txt", .file "y")]) [] =
      .error (.unsupportedFormat "a.pdf") := by
  simp [get_index, create_index_recursive, create_children, mkFileDocs, lookupC,
    Document.init, compute_document_embeddings, extract_chunks, truthyList, containsDot,
    startsWithDot, extOf, splitOnDot, strEndsWith, is_image_path, lowerStr, joinPath,
    FSTree.isDir, contentOf, defaultAllowTypes, Pid]
  decide

/-- Claim C1 (amended): an `UnsupportedFormat` error raised while computing a
single document's embeddings is fatal to the whole `get_index` call: for any
directory containing a file whose extension passes the allow-list but which
is neither a `.txt` file nor an image, and with no usable cache at the root,
`get_index` propagates the error instead of returning the other documents. -/
theorem C1_amended_unsupported_aborts (P : Providers) (fuel : Nat) (uc : Bool)
    (thr : Option Nat) (p : FPath) (name content : String) (σ : CacheMap)
    (h1 : containsDot name = true) (h2 : startsWithDot name = false)
    (h3 : extOf name ∈ defaultAllowTypes)
    (h4 : strEndsWith (joinPath (p ++ [name])) ".txt" = false)
    (h5 : is_image_path (joinPath (p ++ [name])) = false)
    (h6 : lookupC σ p = none) :
    get_index P fuel defaultAllowTypes uc thr p (.dir true [(name, .file content)]) σ =
      .error (.unsupportedFormat (joinPath (p ++ [name]))) := by
  simp [get_index, create_index_recursive, create_children, mkFileDocs, FSTree.isDir,
    h1, h2, h3, h4, h5, h6, Document.init, truthyList, compute_document_embeddings,
    extract_chunks, contentOf, Except.map, Bind.bind, Except.bind]

/-- Witness for C1 (amended): the concrete `a.pdf` instance. -/
theorem C1_witness :
    (containsDot "a.pdf" = true ∧ startsWithDot "a.pdf" = false ∧
        extOf "a.pdf" ∈ defaultAllowTypes ∧
        strEndsWith (joinPath (["r"] ++ ["a.pdf"])) ".txt" = false ∧
        is_image_path (joinPath (["r"] ++ ["a.pdf"])) = false ∧
        lookupC [] ["r"] = none) ∧
      get_index Pid 1 defaultAllowTypes true (some 50) ["r"]
          (.dir true [("a.pdf", .file "x")]) [] =
        .error (.unsupportedFormat (joinPath (["r"] ++ ["a.pdf"]))) :=
  ⟨⟨by decide, by decide, by decide, by decide, by decide, rfl⟩,
    C1_amended_unsupported_aborts Pid 1 true (some 50) ["r"] "a.pdf" "x" []
      (by decide) (by decide) (by decide) (by decide) (by decide) rfl⟩

/-- Claim C3 (code bug): with a corrupt root manifest, `_load_cached_index`
does return `[]` (no exception escapes) and `get_index` treats it as a miss —
but the "full rebuild" then walks into the same directory, sees `.recollect`
among the subdirectories, and RELOADS the same corrupt cache (line 181),
so the rebuild returns NO documents instead of the complete set.  With
`use_cache=false` the very same snapshot yields the complete one-document
set, which is what the claim (and the comment `# only return if the cache
contained contents` in the source) intends. -/
theorem C3_corrupt_cache_no_rebuild :
    load_cached_index Pid 3 [(["root"], ⟨none, []⟩)] ["root"] = [] ∧
      get_index Pid 3 defaultAllowTypes true (some 50) ["root"]
          (.dir true [("a.txt", .file "hello")]) [(["root"], ⟨none, []⟩)] =
        .ok ([], [(["root"], ⟨none, []⟩)]) ∧
      get_index Pid 3 defaultAllowTypes false (some 50) ["root"]
          (.dir true [("a.txt", .file "hello")]) [(["root"], ⟨none, []⟩)] =
        .ok ([⟨"root/a.txt", [[1]], []⟩], [(["root"], ⟨none, []⟩)]) := by
  refine ⟨rfl, ?_, ?_⟩
  · simp [get_index, create_index_recursive, create_children, mkFileDocs, lookupC,
      load_cached_index, defaultAllowTypes, Pid]
    decide
  · simp [get_index, create_index_recursive, create_children, mkFileDocs, lookupC,
      Document.init, compute_document_embeddings, extract_chunks, truthyList,
      containsDot, startsWithDot, extOf, splitOnDot, strEndsWith, is_image_path,
      lowerStr, joinPath, FSTree.isDir, contentOf, defaultAllowTypes, Pid]
    decide

/-- Claim C9 (counterexample): the claim says BOTH the walker and the
recursive build swallow directory permission errors.  The build does, but
`extract_file_paths` has no handler: an unreadable subdirectory makes the
whole enumeration fail, while `_create_index_recursive` on the same snapshot
still returns the sibling document. -/
theorem C9_counterexample :
    extract_file_paths ["txt"] [] (.dir true [("sub", .dir false []), ("a.txt", .file "x")]) =
        .error (.permission ["sub"]) ∧
      create_index_recursive Pid ["txt"] true (some 50) 1 []
          (.dir true [("sub", .dir false []), ("a.txt", .file "x")]) [] =
        .ok (([], [⟨"a.txt", [[1]], []⟩], []), []) := by
  constructor
  · simp [extract_file_paths, extract_paths_list, FSTree.isDir, containsDot, extOf,
      splitOnDot, joinPath]
    decide
  · simp [create_index_recursive, create_children, mkFileDocs, lookupC, FSTree.isDir,
      Document.init, compute_document_embeddings, extract_chunks, truthyList,
      containsDot, startsWithDot, extOf, splitOnDot, strEndsWith, is_image_path,
      lowerStr, joinPath, contentOf, Pid]
    decide

/-- Claim C9 (amended): `_create_index_recursive` swallows the permission
error — an unreadable subdirectory entry contributes nothing and the build of
the rest of the directory is unchanged; `extract_file_paths` propagates the
error instead (see the counterexample). -/
theorem C9_amended_builder_swallows (P : Providers) (types : List String) (uc : Bool)
    (thr : Option Nat) (fuel : Nat) (p : FPath) (name : String)
    (es : List (String × FSTree)) (rest : List (String × FSTree)) (σ : CacheMap) :
    create_index_recursive P types uc thr fuel p
        (.dir true ((name, .dir false es) :: rest)) σ =
      create_index_recursive P types uc thr fuel p (.dir true rest) σ := by
  have hch : create_children P types uc thr fuel p ((name, FSTree.dir false es) :: rest) σ =
      create_children P types uc thr fuel p rest σ := by
    by_cases hh : startsWithDot name
    · simp [create_children, FSTree.isDir, hh]
    · simp only [create_children, FSTree.isDir, hh, Bool.false_eq_true, if_false,
        if_true, create_index_recursive]
      cases h : create_children P types uc thr fuel p rest σ with
      | error e => simp [h, Bind.bind, Except.bind]
      | ok v =>
        obtain ⟨⟨a, b, c⟩, σ2⟩ := v
        simp [h, Bind.bind, Except.bind]
  by_cases hc : uc && (lookupC σ p).isSome
  · simp [create_index_recursive, hc]
  · simp [create_index_recursive, hc, hch, FSTree.isDir]

/-- Claim C8 (counterexample): the claim says that with caching enabled and
no usable root cache, a root manifest is ALWAYS written — "including when the
remaining uncached-document list is empty".  On an empty directory the
uncached list is empty, `get_index` takes the `len(uncached) > 0 == False`
branch, and the cache store stays empty: no root manifest exists afterwards. -/
theorem C8_counterexample :
    get_index Pid 1 defaultAllowTypes true (some 50) [] (.dir true []) [] =
        .ok ([], ([] : CacheMap)) ∧
      lookupC ([] : CacheMap) [] = none := by
  constructor
  · simp [get_index, create_index_recursive, create_children, mkFileDocs, lookupC]
    decide
  · rfl

/-- Claim C8 (amended): when caching is enabled and the root cache lookup
yields no documents, `get_index` performs the final root write exactly when
the rebuild's remaining uncached list is non-empty: in that case the root's
cache afterwards holds precisely the manifest covering the uncached documents
with the collected child references; when the uncached list is empty, the
cache store is left exactly as the recursive build produced it (no final
root write). -/
theorem C8_amended_root_write (P : Providers) (fuel : Nat) (types : List String)
    (thr : Option Nat) (p : FPath) (t : FSTree) (σ σ1 : CacheMap)
    (c u : List Document) (ch : List FPath)
    (hbuild : create_index_recursive P types true thr fuel p t σ = .ok ((c, u, ch), σ1))
    (hmiss : (if (lookupC σ p).isSome then load_cached_index P fuel σ p else []) = []) :
    get_index P fuel types true thr p t σ =
        .ok (c ++ u, if 0 < u.length then (save_index_to_cache p u ch σ1).2 else σ1) ∧
      (0 < u.length →
        lookupC (if 0 < u.length then (save_index_to_cache p u ch σ1).2 else σ1) p =
          some ⟨some ⟨(saveEntries 0 u).1, ch⟩, (saveEntries 0 u).2⟩) := by
  constructor
  · by_cases hu : 0 < u.length <;>
      simp [get_index, hmiss, hbuild, hu, Bind.bind, Except.bind]
  · intro hu
    simp [hu, save_index_to_cache, insertC, lookupC]

/-- Witness for C8 (amended): a one-file directory; the build leaves one
uncached document and the root manifest written afterwards covers exactly
it. -/
theorem C8_witness :
    (create_index_recursive Pid ["txt"] true (some 50) 1 ["r"]
          (.dir true [("a.txt", .file "x")]) [] =
        .ok (([], [⟨"r/a.txt", [[1]], []⟩], []), []) ∧
      (if (lookupC [] ["r"]).isSome then load_cached_index Pid 1 [] ["r"] else []) = []) ∧
      (get_index Pid 1 ["txt"] true (some 50) ["r"] (.dir true [("a.txt", .file "x")]) [] =
          .ok ([] ++ [⟨"r/a.txt", [[1]], []⟩],
            if 0 < [(⟨"r/a.txt", [[1]], []⟩ : Document)].length then
              (save_index_to_cache ["r"] [⟨"r/a.txt", [[1]], []⟩] [] []).2 else []) ∧
        (0 < [(⟨"r/a.txt", [[1]], []⟩ : Document)].length →
          lookupC (if 0 < [(⟨"r/a.txt", [[1]], []⟩ : Document)].length then
              (save_index_to_cache ["r"] [⟨"r/a.txt", [[1]], []⟩] [] []).2 else []) ["r"] =
            some ⟨some ⟨(saveEntries 0 [⟨"r/a.txt", [[1]], []⟩]).1, []⟩,
              (saveEntries 0 [⟨"r/a.txt", [[1]], []⟩]).2⟩)) :=
  ⟨⟨by
      simp [create_index_recursive, create_children, mkFileDocs, lookupC, FSTree.isDir,
        Document.init, compute_document_embeddings, extract_chunks, truthyList,
        containsDot, startsWithDot, extOf, splitOnDot, strEndsWith, is_image_path,
        lowerStr, joinPath, contentOf, Pid]
      decide, rfl⟩,
    C8_amended_root_write Pid 1 ["txt"] (some 50) ["r"] (.dir true [("a.txt", .file "x")])
      [] [] [] [⟨"r/a.txt", [[1]], []⟩] []
      (by
        simp [create_index_recursive, create_children, mkFileDocs, lookupC, FSTree.isDir,
          Document.init, compute_document_embeddings, extract_chunks, truthyList,
          containsDot, startsWithDot, extOf, splitOnDot, strEndsWith, is_image_path,
          lowerStr, joinPath, contentOf, Pid]
        decide) rfl⟩

/-- Path `q` lies inside the subtree rooted at `p` (including `p` itself). -/
def Under (p q : FPath) : Prop := ∃ r, q = p ++ r

theorem Under_refl (p : FPath) : Under p p := ⟨[], by simp⟩

theorem Under_extend {p q : FPath} (name : String) (h : Under (p ++ [name]) q) :
    Under p q := by
  obtain ⟨r, rfl⟩ := h
  exact ⟨[name] ++ r, by simp⟩

theorem Under_same_head {p : FPath} {a b : String} {q : FPath}
    (ha : Under (p ++ [a]) q) (hb : Under (p ++ [b]) q) : a = b := by
  obtain ⟨r, hr⟩ := ha
  obtain ⟨s, hs⟩ := hb
  rw [hr] at hs
  have h2 : p ++ ([a] ++ r) = p ++ ([b] ++ s) := by simpa [List.append_assoc] using hs
  have h3 := List.append_cancel_left h2
  simp only [List.singleton_append] at h3
  injection h3 with h4 h5

/-- Real directory snapshots have pairwise distinct entry names in every
directory. -/
inductive NoDupNames : FSTree → Prop where
  | file (c : String) : NoDupNames (.file c)
  | dir (r : Bool) (es : List (String × FSTree)) :
      (es.map Prod.fst).Nodup → (∀ e ∈ es, NoDupNames e.2) → NoDupNames (.dir r es)

/-- Structural induction for the nested `FSTree` inductive. -/
theorem FSTree.inductionOn {motive : FSTree → Prop}
    (hfile : ∀ c, motive (.file c))
    (hdir : ∀ r es, (∀ e ∈ es, motive e.2) → motive (.dir r es)) :
    ∀ t, motive t := by
  have H : ∀ n (t : FSTree), sizeOf t ≤ n → motive t := by
    intro n
    induction n with
    | zero =>
      intro t ht
      cases t with
      | file c => simp [FSTree.file.sizeOf_spec] at ht
      | dir r es => simp [FSTree.dir.sizeOf_spec] at ht
    | succ n ih =>
      intro t ht
      cases t with
      | file c => exact hfile c
      | dir r es =>
        refine hdir r es ?_
        intro e he
        refine ih e.2 ?_
        have h1 := List.sizeOf_lt_of_mem he
        have h2 : sizeOf e.2 < sizeOf e := by
          obtain ⟨a, b⟩ := e
          simp
        have h3 : sizeOf es < sizeOf (FSTree.dir r es) := by
          simp [FSTree.dir.sizeOf_spec]
        omega
  exact fun t => H (sizeOf t) t (le_refl _)

theorem lookupC_insertC (p : FPath) (rd : RecollectDir) (σ : CacheMap) (q : FPath) :
    lookupC (insertC p rd σ) q = if p = q then some rd else lookupC σ q := by
  simp [insertC, lookupC]

theorem create_children_writes (P : Providers) (types : List String) (uc : Bool)
    (thr : Option Nat) (fuel : Nat) (p : FPath) :
    ∀ (es : List (String × FSTree)) (σ : CacheMap) res (σ2 : CacheMap),
      (∀ e ∈ es, ∀ p2 σa resa σb,
        create_index_recursive P types uc thr fuel p2 e.2 σa = .ok (resa, σb) →
        ∀ q, lookupC σb q ≠ lookupC σa q → Under p2 q) →
      create_children P types uc thr fuel p es σ = .ok (res, σ2) →
      ∀ q, lookupC σ2 q ≠ lookupC σ q → Under p q := by
  intro es
  induction es with
  | nil =>
    intro σ res σ2 _ hok q hq
    simp [create_children] at hok
    rw [hok.2] at hq
    exact absurd rfl hq
  | cons e rest ih =>
    obtain ⟨name, t⟩ := e
    intro σ res σ2 hmot hok q hq
    have hmot2 : ∀ e ∈ rest, ∀ p2 σa resa σb,
        create_index_recursive P types uc thr fuel p2 e.2 σa = .ok (resa, σb) →
        ∀ q, lookupC σb q ≠ lookupC σa q → Under p2 q :=
      fun e he => hmot e (List.mem_cons_of_mem _ he)
    by_cases hd : t.isDir = false
    · simp only [create_children, hd, if_true] at hok
      exact ih σ res σ2 hmot2 hok q hq
    · by_cases hh : startsWithDot name
      · have heq : create_children P types uc thr fuel p ((name, t) :: rest) σ =
            create_children P types uc thr fuel p rest σ := by
          simp [create_children, hd, hh]
        rw [heq] at hok
        exact ih σ res σ2 hmot2 hok q hq
      · have heq : create_children P types uc thr fuel p ((name, t) :: rest) σ =
            (create_index_recursive P types uc thr fuel (p ++ [name]) t σ).bind fun r1 =>
              (create_children P types uc thr fuel p rest r1.2).bind fun r2 =>
                .ok ((r1.1.1 ++ r2.1.1, r1.1.2.1 ++ r2.1.2.1, r1.1.2.2 ++ r2.1.2.2), r2.2) := by
          simp [create_children, hd, hh, Bind.bind]
        rw [heq] at hok
        cases h1 : create_index_recursive P types uc thr fuel (p ++ [name]) t σ with
        | error e =>
          rw [h1] at hok
          simp [Except.bind] at hok
        | ok v1 =>
          rw [h1] at hok
          simp only [Except.bind] at hok
          cases h2 : create_children P types uc thr fuel p rest v1.2 with
          | error e =>
            rw [h2] at hok
            simp at hok
          | ok v2 =>
            rw [h2] at hok
            simp only [Except.ok.injEq] at hok
            have hσ2 : σ2 = v2.2 := by
              have h3 := congrArg Prod.snd hok
              simpa using h3.symm
            rw [hσ2] at hq
            by_cases hmid : lookupC v1.2 q = lookupC σ q
            · have hne : lookupC v2.2 q ≠ lookupC v1.2 q := by
                rw [hmid]
                exact hq
              exact ih v1.2 v2.1 v2.2 hmot2 h2 q hne
            · exact Under_extend name
                (hmot (name, t) (List.mem_cons_self _ _) (p ++ [name]) σ v1.1 v1.2
                  (by rw [h1]) q hmid)

theorem create_writes (P : Providers) (types : List String) (uc : Bool)
    (thr : Option Nat) (fuel : Nat) :
    ∀ (t : FSTree) (p : FPath) (σ : CacheMap) res (σ2 : CacheMap),
      create_index_recursive P types uc thr fuel p t σ = .ok (res, σ2) →
      ∀ q, lookupC σ2 q ≠ lookupC σ q → Under p q := by
  intro t
  induction t using FSTree.inductionOn with
  | hfile c =>
    intro p σ res σ2 hok q hq
    simp [create_index_recursive] at hok
    rw [hok.2] at hq
    exact absurd rfl hq
  | hdir r es ihes =>
    intro p σ res σ2 hok q hq
    by_cases hr : r = false
    · simp [create_index_recursive, hr] at hok
      rw [hok.2] at hq
      exact absurd rfl hq
    · by_cases hc : uc && (lookupC σ p).isSome
      · simp [create_index_recursive, hr, hc] at hok
        rw [hok.2] at hq
        exact absurd rfl hq
      · have heq : create_index_recursive P types uc thr fuel p (.dir r es) σ =
            (create_children P types uc thr fuel p es σ).bind fun r1 =>
              (mkFileDocs P types p (es.filter fun e => !e.2.isDir)).bind fun fdocs =>
                match thr with
                | some n =>
                  if n < (r1.1.2.1 ++ fdocs).length then
                    .ok ((r1.1.1 ++ (r1.1.2.1 ++ fdocs), [],
                        [(save_index_to_cache p (r1.1.2.1 ++ fdocs) r1.1.2.2 r1.2).1]),
                      (save_index_to_cache p (r1.1.2.1 ++ fdocs) r1.1.2.2 r1.2).2)
                  else .ok ((r1.1.1, r1.1.2.1 ++ fdocs, r1.1.2.2), r1.2)
                | none => .ok ((r1.1.1, r1.1.2.1 ++ fdocs, r1.1.2.2), r1.2) := by
          simp [create_index_recursive, hr, hc, Bind.bind]
        rw [heq] at hok
        cases h1 : create_children P types uc thr fuel p es σ with
        | error e =>
          rw [h1] at hok
          simp [Except.bind] at hok
        | ok v1 =>
          rw [h1] at hok
          simp only [Except.bind] at hok
          cases h2 : mkFileDocs P types p (es.filter fun e => !e.2.isDir) with
          | error e =>
            rw [h2] at hok
            simp at hok
          | ok f =>
            rw [h2] at hok
            simp only [] at hok
            have hmid : ∀ q2, lookupC v1.2 q2 ≠ lookupC σ q2 → Under p q2 :=
              fun q2 hq2 => create_children_writes P types uc thr fuel p es σ v1.1 v1.2
                (fun e he p2 σa resa σb hb => ihes e he p2 σa (resa, σb).1 σb hb) h1 q2 hq2
            cases thr with
            | none =>
              simp only [Except.ok.injEq] at hok
              have hσ2 : σ2 = v1.2 := by
                have h3 := congrArg Prod.snd hok
                simpa using h3.symm
              rw [hσ2] at hq
              exact hmid q hq
            | some n =>
              by_cases hth : n < (v1.1.2.1 ++ f).length
              · simp only [hth, if_true, save_index_to_cache, Except.ok.injEq] at hok
                have hσ2 : σ2 = insertC p
                    ⟨some ⟨(saveEntries 0 (v1.1.2.1 ++ f)).1, v1.1.2.2⟩,
                      (saveEntries 0 (v1.1.2.1 ++ f)).2⟩ v1.2 := by
                  have h3 := congrArg Prod.snd hok
                  simpa using h3.symm
                rw [hσ2] at hq
                by_cases hpq : p = q
                · exact hpq ▸ Under_refl p
                · rw [lookupC_insertC, if_neg hpq] at hq
                  by_cases hmid2 : lookupC v1.2 q = lookupC σ q
                  · rw [hmid2] at hq
                    exact absurd rfl hq
                  · exact hmid q hmid2
              · simp only [hth, if_false, Except.ok.injEq] at hok
                have hσ2 : σ2 = v1.2 := by
                  have h3 := congrArg Prod.snd hok
                  simpa using h3.symm
                rw [hσ2] at hq
                exact hmid q hq

/-- The multiset-relevant view of one recursive build result: the error, or
the paths of `cached ++ uncached`. -/
def pathsOfResult :
    Except Err ((List Document × List Document × List FPath) × CacheMap) →
      Except Err (List String)
  | .error e => .error e
  | .ok (r, _) => .ok ((r.1 ++ r.2.1).map Document.path)

/-- Two fallible path lists agree up to permutation: same error, or permuted
path lists. -/
def EPerm : Except Err (List String) → Except Err (List String) → Prop
  | .error e, .error e2 => e = e2
  | .ok l, .ok l2 => l.Perm l2
  | _, _ => False

/-- No cache exists anywhere in the subtree rooted at `p`. -/
def Fresh (σ : CacheMap) (p : FPath) : Prop := ∀ q, Under p q → lookupC σ q = none

theorem perm_shuffle {α : Type} (a b c d : List α) :
    ((a ++ b) ++ (c ++ d)).Perm ((a ++ c) ++ (b ++ d)) := by
  have hmid : (b ++ (c ++ d)).Perm (c ++ (b ++ d)) := by
    rw [← List.append_assoc b c d, ← List.append_assoc c b d]
    exact List.Perm.append_right d List.perm_append_comm
  rw [List.append_assoc a b (c ++ d), List.append_assoc a c (b ++ d)]
  exact List.Perm.append_left a hmid

theorem create_dir_eq (P : Providers) (types : List String) (uc : Bool)
    (thr : Option Nat) (fuel : Nat) (p : FPath) (es : List (String × FSTree))
    (σ : CacheMap) (hc : (uc && (lookupC σ p).isSome) = false) :
    create_index_recursive P types uc thr fuel p (.dir true es) σ =
      (create_children P types uc thr fuel p es σ).bind fun r1 =>
        (mkFileDocs P types p (es.filter fun e => !e.2.isDir)).bind fun fdocs =>
          match thr with
          | some n =>
            if n < (r1.1.2.1 ++ fdocs).length then
              .ok ((r1.1.1 ++ (r1.1.2.1 ++ fdocs), [],
                  [(save_index_to_cache p (r1.1.2.1 ++ fdocs) r1.1.2.2 r1.2).1]),
                (save_index_to_cache p (r1.1.2.1 ++ fdocs) r1.1.2.2 r1.2).2)
            else .ok ((r1.1.1, r1.1.2.1 ++ fdocs, r1.1.2.2), r1.2)
          | none => .ok ((r1.1.1, r1.1.2.1 ++ fdocs, r1.1.2.2), r1.2) := by
  simp [create_index_recursive, hc, Bind.bind]

theorem create_dir_ok_paths (P : Providers) (types : List String) (uc : Bool)
    (thr : Option Nat) (fuel : Nat) (p : FPath) (es : List (String × FSTree))
    (σ : CacheMap) (c u : List Document) (ch : List FPath) (σm : CacheMap)
    (f : List Document)
    (hc : (uc && (lookupC σ p).isSome) = false)
    (hch : create_children P types uc thr fuel p es σ = .ok ((c, u, ch), σm))
    (hf : mkFileDocs P types p (es.filter fun e => !e.2.isDir) = .ok f) :
    pathsOfResult (create_index_recursive P types uc thr fuel p (.dir true es) σ) =
      .ok ((c ++ (u ++ f)).map Document.path) := by
  rw [create_dir_eq P types uc thr fuel p es σ hc, hch]
  simp only [Except.bind]
  rw [hf]
  simp only [Except.bind]
  cases thr with
  | none => simp [pathsOfResult]
  | some n =>
    by_cases hth : n < u.length + f.length
    · simp [hth, pathsOfResult]
    · simp [hth, pathsOfResult]

theorem create_dir_err_children (P : Providers) (types : List String) (uc : Bool)
    (thr : Option Nat) (fuel : Nat) (p : FPath) (es : List (String × FSTree))
    (σ : CacheMap) (e : Err)
    (hc : (uc && (lookupC σ p).isSome) = false)
    (hch : create_children P types uc thr fuel p es σ = .error e) :
    create_index_recursive P types uc thr fuel p (.dir true es) σ = .error e := by
  rw [create_dir_eq P types uc thr fuel p es σ hc, hch]
  rfl

theorem create_dir_err_files (P : Providers) (types : List String) (uc : Bool)
    (thr : Option Nat) (fuel : Nat) (p : FPath) (es : List (String × FSTree))
    (σ : CacheMap) (v : (List Document × List Document × List FPath) × CacheMap) (e : Err)
    (hc : (uc && (lookupC σ p).isSome) = false)
    (hch : create_children P types uc thr fuel p es σ = .ok v)
    (hf : mkFileDocs P types p (es.filter fun e => !e.2.isDir) = .error e) :
    create_index_recursive P types uc thr fuel p (.dir true es) σ = .error e := by
  rw [create_dir_eq P types uc thr fuel p es σ hc, hch]
  simp [Except.bind, hf]

theorem children_agree (P : Providers) (types : List String)
    (uc uc2 : Bool) (thr thr2 : Option Nat) (fuel fuel2 : Nat) (p : FPath) :
    ∀ (es : List (String × FSTree)) (σ σ2 : CacheMap),
      (∀ e ∈ es, ∀ p2 σa σb, NoDupNames e.2 → Fresh σa p2 → Fresh σb p2 →
        EPerm (pathsOfResult (create_index_recursive P types uc thr fuel p2 e.2 σa))
          (pathsOfResult (create_index_recursive P types uc2 thr2 fuel2 p2 e.2 σb))) →
      (es.map Prod.fst).Nodup →
      (∀ e ∈ es, NoDupNames e.2) →
      (∀ e ∈ es, Fresh σ (p ++ [e.1])) →
      (∀ e ∈ es, Fresh σ2 (p ++ [e.1])) →
      EPerm (pathsOfResult (create_children P types uc thr fuel p es σ))
        (pathsOfResult (create_children P types uc2 thr2 fuel2 p es σ2)) := by
  intro es
  induction es with
  | nil =>
    intro σ σ2 _ _ _ _ _
    simp [create_children, pathsOfResult, EPerm]
  | cons e rest ih =>
    obtain ⟨name, t⟩ := e
    intro σ σ2 hmot hnodup hnd hfr1 hfr2
    have hmot2 := fun e he => hmot e (List.mem_cons_of_mem _ he)
    have hnd2 := fun e he => hnd e (List.mem_cons_of_mem _ he)
    have hnodup2 : (rest.map Prod.fst).Nodup := by
      simp only [List.map_cons, List.nodup_cons] at hnodup
      exact hnodup.2
    have hname : name ∉ rest.map Prod.fst := by
      simp only [List.map_cons, List.nodup_cons] at hnodup
      exact hnodup.1
    by_cases hd : t.isDir = false
    · simp only [create_children, hd, if_true]
      exact ih σ σ2 hmot2 hnodup2 hnd2 (fun e he => hfr1 e (List.mem_cons_of_mem _ he))
        (fun e he => hfr2 e (List.mem_cons_of_mem _ he))
    · by_cases hh : startsWithDot name
      · have heq : ∀ ucx thrx fuelx (σx : CacheMap),
            create_children P types ucx thrx fuelx p ((name, t) :: rest) σx =
              create_children P types ucx thrx fuelx p rest σx := by
          intro ucx thrx fuelx σx
          simp [create_children, hd, hh]
        rw [heq, heq]
        exact ih σ σ2 hmot2 hnodup2 hnd2 (fun e he => hfr1 e (List.mem_cons_of_mem _ he))
          (fun e he => hfr2 e (List.mem_cons_of_mem _ he))
      · have heq : ∀ ucx thrx fuelx (σx : CacheMap),
            create_children P types ucx thrx fuelx p ((name, t) :: rest) σx =
              (create_index_recursive P types ucx thrx fuelx (p ++ [name]) t σx).bind
                fun r1 => (create_children P types ucx thrx fuelx p rest r1.2).bind
                  fun r2 => .ok ((r1.1.1 ++ r2.1.1, r1.1.2.1 ++ r2.1.2.1,
                    r1.1.2.2 ++ r2.1.2.2), r2.2) := by
          intro ucx thrx fuelx σx
          simp [create_children, hd, hh, Bind.bind]
        rw [heq, heq]
        have hhead := hmot (name, t) (List.mem_cons_self _ _) (p ++ [name]) σ σ2
          (hnd (name, t) (List.mem_cons_self _ _))
          (hfr1 (name, t) (List.mem_cons_self _ _))
          (hfr2 (name, t) (List.mem_cons_self _ _))
        cases h1 : create_index_recursive P types uc thr fuel (p ++ [name]) t σ with
        | error e1 =>
          cases h1b : create_index_recursive P types uc2 thr2 fuel2 (p ++ [name]) t σ2 with
          | error e2 =>
            rw [h1, h1b] at hhead
            simp only [pathsOfResult, EPerm] at hhead
            simp [Except.bind, pathsOfResult, EPerm, hhead]
          | ok w1 =>
            rw [h1, h1b] at hhead
            obtain ⟨w11, w12⟩ := w1
            simp [pathsOfResult, EPerm] at hhead
        | ok v1 =>
          cases h1b : create_index_recursive P types uc2 thr2 fuel2 (p ++ [name]) t σ2 with
          | error e2 =>
            rw [h1, h1b] at hhead
            obtain ⟨v11, v12⟩ := v1
            simp [pathsOfResult, EPerm] at hhead
          | ok w1 =>
            rw [h1, h1b] at hhead
            have hfr1m : ∀ e ∈ rest, Fresh v1.2 (p ++ [e.1]) := by
              intro e he q hq
              by_cases hch : lookupC v1.2 q = lookupC σ q
              · rw [hch]
                exact hfr1 e (List.mem_cons_of_mem _ he) q hq
              · have hu := create_writes P types uc thr fuel t (p ++ [name]) σ v1.1 v1.2
                  (by rw [h1]) q hch
                have : e.1 = name := Under_same_head hq hu
                exact absurd (this ▸ (List.mem_map.mpr ⟨e, he, rfl⟩)) hname
            have hfr2m : ∀ e ∈ rest, Fresh w1.2 (p ++ [e.1]) := by
              intro e he q hq
              by_cases hch : lookupC w1.2 q = lookupC σ2 q
              · rw [hch]
                exact hfr2 e (List.mem_cons_of_mem _ he) q hq
              · have hu := create_writes P types uc2 thr2 fuel2 t (p ++ [name]) σ2 w1.1 w1.2
                  (by rw [h1b]) q hch
                have : e.1 = name := Under_same_head hq hu
                exact absurd (this ▸ (List.mem_map.mpr ⟨e, he, rfl⟩)) hname
            have hrest := ih v1.2 w1.2 hmot2 hnodup2 hnd2 hfr1m hfr2m
            cases h2 : create_children P types uc thr fuel p rest v1.2 with
            | error e1 =>
              cases h2b : create_children P types uc2 thr2 fuel2 p rest w1.2 with
              | error e2 =>
                rw [h2, h2b] at hrest
                simp only [pathsOfResult, EPerm] at hrest
                simp [Except.bind, h2, h2b, pathsOfResult, EPerm, hrest]
              | ok w2 =>
                rw [h2, h2b] at hrest
                obtain ⟨w21, w22⟩ := w2
                simp [pathsOfResult, EPerm] at hrest
            | ok v2 =>
              cases h2b : create_children P types uc2 thr2 fuel2 p rest w1.2 with
              | error e2 =>
                rw [h2, h2b] at hrest
                obtain ⟨v21, v22⟩ := v2
                simp [pathsOfResult, EPerm] at hrest
              | ok w2 =>
                rw [h2, h2b] at hrest
                simp only [Except.bind, h2, h2b, pathsOfResult, EPerm]
                obtain ⟨⟨c1, u1, ch1⟩, σm1⟩ := v1
                obtain ⟨⟨c2, u2, ch2⟩, σm2⟩ := v2
                obtain ⟨⟨c1b, u1b, ch1b⟩, σn1⟩ := w1
                obtain ⟨⟨c2b, u2b, ch2b⟩, σn2⟩ := w2
                simp only [pathsOfResult, EPerm] at hhead hrest
                simp only []
                have hp1 : ((c1 ++ c2) ++ (u1 ++ u2)).Perm ((c1 ++ u1) ++ (c2 ++ u2)) :=
                  perm_shuffle c1 c2 u1 u2
                have hp2 : ((c1b ++ c2b) ++ (u1b ++ u2b)).Perm
                    ((c1b ++ u1b) ++ (c2b ++ u2b)) :=
                  perm_shuffle c1b c2b u1b u2b
                refine List.Perm.trans (List.Perm.map Document.path hp1) ?_
                refine List.Perm.trans ?_ (List.Perm.map Document.path hp2).symm
                have hcomb := List.Perm.append hhead hrest
                simpa [List.map_append] using hcomb

theorem create_agree (P : Providers) (types : List String) (uc uc2 : Bool)
    (thr thr2 : Option Nat) (fuel fuel2 : Nat) :
    ∀ (t : FSTree) (p : FPath) (σ σ2 : CacheMap), NoDupNames t → Fresh σ p → Fresh σ2 p →
      EPerm (pathsOfResult (create_index_recursive P types uc thr fuel p t σ))
        (pathsOfResult (create_index_recursive P types uc2 thr2 fuel2 p t σ2)) := by
  intro t
  induction t using FSTree.inductionOn with
  | hfile c =>
    intro p σ σ2 _ _ _
    simp [create_index_recursive, pathsOfResult, EPerm]
  | hdir r es ihes =>
    intro p σ σ2 hnd hf1 hf2
    have hndn : (es.map Prod.fst).Nodup := by
      cases hnd with
      | dir _ _ h1 h2 => exact h1
    have hnds : ∀ e ∈ es, NoDupNames e.2 := by
      cases hnd with
      | dir _ _ h1 h2 => exact h2
    cases r with
    | false => simp [create_index_recursive, pathsOfResult, EPerm]
    | true =>
      have hc1 : (uc && (lookupC σ p).isSome) = false := by
        rw [hf1 p (Under_refl p)]
        simp
      have hc2 : (uc2 && (lookupC σ2 p).isSome) = false := by
        rw [hf2 p (Under_refl p)]
        simp
      have hch := children_agree P types uc uc2 thr thr2 fuel fuel2 p es σ σ2
        (fun e he p2 σa σb => ihes e he p2 σa σb) hndn hnds
        (fun e _ q hq => hf1 q (Under_extend e.1 hq))
        (fun e _ q hq => hf2 q (Under_extend e.1 hq))
      cases h1 : create_children P types uc thr fuel p es σ with
      | error e1 =>
        cases h1b : create_children P types uc2 thr2 fuel2 p es σ2 with
        | error e2 =>
          rw [h1, h1b] at hch
          simp only [pathsOfResult, EPerm] at hch
          rw [create_dir_err_children P types uc thr fuel p es σ e1 hc1 h1,
            create_dir_err_children P types uc2 thr2 fuel2 p es σ2 e2 hc2 h1b]
          exact hch
        | ok w =>
          rw [h1, h1b] at hch
          obtain ⟨w1, w2⟩ := w
          simp [pathsOfResult, EPerm] at hch
      | ok v =>
        cases h1b : create_children P types uc2 thr2 fuel2 p es σ2 with
        | error e2 =>
          rw [h1, h1b] at hch
          obtain ⟨v1, v2⟩ := v
          simp [pathsOfResult, EPerm] at hch
        | ok w =>
          obtain ⟨⟨c1, u1, ch1⟩, σm⟩ := v
          obtain ⟨⟨c1b, u1b, ch1b⟩, σn⟩ := w
          cases h3 : mkFileDocs P types p (es.filter fun e => !e.2.isDir) with
          | error e =>
            rw [create_dir_err_files P types uc thr fuel p es σ _ e hc1 h1 h3,
              create_dir_err_files P types uc2 thr2 fuel2 p es σ2 _ e hc2 h1b h3]
            simp [pathsOfResult, EPerm]
          | ok f =>
            rw [create_dir_ok_paths P types uc thr fuel p es σ c1 u1 ch1 σm f hc1 h1 h3,
              create_dir_ok_paths P types uc2 thr2 fuel2 p es σ2 c1b u1b ch1b σn f
                hc2 h1b h3]
            simp only [EPerm]
            rw [h1, h1b] at hch
            simp only [pathsOfResult, EPerm] at hch
            have hcomb := List.Perm.append_right (f.map Document.path) hch
            simpa [List.map_append, List.append_assoc] using hcomb

theorem get_index_paths_eq (P : Providers) (fuel : Nat) (types : List String)
    (uc : Bool) (thr : Option Nat) (p : FPath) (t : FSTree) (σ : CacheMap)
    (hc : (uc && (lookupC σ p).isSome) = false) :
    (get_index P fuel types uc thr p t σ).map (fun r => r.1.map Document.path) =
      pathsOfResult (create_index_recursive P types uc thr fuel p t σ) := by
  cases h1 : create_index_recursive P types uc thr fuel p t σ with
  | error e => simp [get_index, h1, hc, pathsOfResult, Bind.bind, Except.bind, Except.map]
  | ok v =>
    obtain ⟨⟨c, u, ch⟩, σ2⟩ := v
    by_cases hu : uc && 0 < u.length <;>
      simp [get_index, h1, hc, hu, pathsOfResult, Bind.bind, Except.bind, Except.map]

/-- Claim C6 (counterexample): the claim asserts the path set is independent
of `use_cache` for EVERY filesystem snapshot.  On a snapshot whose root
already owns a (stale) cache listing `"ghost"`, `use_cache=true` returns
`["ghost"]` while `use_cache=false` walks the tree and returns `["a.txt"]` —
different path sets. -/
theorem C6_counterexample :
    (get_index Pid 3 defaultAllowTypes true (some 50) [] (.dir true [("a.txt", .file "h")])
          [([], ⟨some ⟨[⟨"ghost", some (0, true), none⟩], []⟩, [((0, true), [[1]])]⟩)]).map
        (fun r => r.1.map Document.path) = .ok ["ghost"] ∧
      (get_index Pid 3 defaultAllowTypes false (some 50) [] (.dir true [("a.txt", .file "h")])
          [([], ⟨some ⟨[⟨"ghost", some (0, true), none⟩], []⟩, [((0, true), [[1]])]⟩)]).map
        (fun r => r.1.map Document.path) = .ok ["a.txt"] := by
  constructor
  · simp [get_index, lookupC, load_cached_index, loadDocsList, loadDocEntry, lookupB,
      Document.init, truthyList, Except.map]
  · simp [get_index, create_index_recursive, create_children, mkFileDocs, lookupC,
      Document.init, compute_document_embeddings, extract_chunks, truthyList,
      containsDot, startsWithDot, extOf, splitOnDot, strEndsWith, is_image_path,
      lowerStr, joinPath, FSTree.isDir, contentOf, defaultAllowTypes, Pid, Except.map]
    decide

/-- Claim C6 (amended): for a snapshot with no pre-existing caches (an empty
cache store) and a well-formed directory tree (pairwise distinct entry names
in every directory), `get_index` produces the same multiset of document paths
— and fails with the same error, if any — regardless of `use_cache`,
`subcache_threshold` and recursion fuel. -/
theorem C6_amended_build_paths_agree (P : Providers) (types : List String)
    (uc uc2 : Bool) (thr thr2 : Option Nat) (fuel fuel2 : Nat) (p : FPath) (t : FSTree)
    (hnd : NoDupNames t) :
    EPerm ((get_index P fuel types uc thr p t []).map (fun r => r.1.map Document.path))
      ((get_index P fuel2 types uc2 thr2 p t []).map (fun r => r.1.map Document.path)) := by
  have hc1 : (uc && (lookupC ([] : CacheMap) p).isSome) = false := by simp [lookupC]
  have hc2 : (uc2 && (lookupC ([] : CacheMap) p).isSome) = false := by simp [lookupC]
  rw [get_index_paths_eq P fuel types uc thr p t [] hc1,
    get_index_paths_eq P fuel2 types uc2 thr2 p t [] hc2]
  exact create_agree P types uc uc2 thr thr2 fuel fuel2 t p [] [] hnd
    (fun q _ => rfl) (fun q _ => rfl)

/-- Witness for C6 (amended): a one-file snapshot, comparing a cached
thresholded run against an uncached run without threshold. -/
theorem C6_witness :
    NoDupNames (.dir true [("a.txt", FSTree.file "x")]) ∧
      EPerm ((get_index Pid 3 defaultAllowTypes true (some 50) []
            (.dir true [("a.txt", FSTree.file "x")]) []).map
          (fun r => r.1.map Document.path))
        ((get_index Pid 5 defaultAllowTypes false none []
            (.dir true [("a.txt", FSTree.file "x")]) []).map
          (fun r => r.1.map Document.path)) := by
  have hnd : NoDupNames (.dir true [("a.txt", FSTree.file "x")]) := by
    refine NoDupNames.dir true _ ?_ ?_
    · simp
    · intro e he
      simp at he
      rw [he]
      exact NoDupNames.file "x"
  exact ⟨hnd, C6_amended_build_paths_agree Pid defaultAllowTypes true false (some 50) none
    3 5 [] (.dir true [("a.txt", FSTree.file "x")]) hnd⟩
